import Mathlib

/-!
Shallow embedding of `src/tools/dev/scan_dependencies.py` (class
`DependencyScanner`): module catalog discovery, import extraction,
third-party filtering, dependency-graph construction and cycle
detection, together with proofs about the claims of the specification.

Python sets are modelled as duplicate-free lists built with `insertS`
(membership-checked append, preserving insertion order); dicts as
association lists updated in place (`updateA`); relative file paths as
lists of path segments.
-/

namespace ScanDeps

/-- Boolean lexicographic comparison on character lists (by code point),
the comparison Python uses on strings.  Equivalent to `List.lt` on
`List Char` (proved below); defined directly so that it evaluates by
kernel reduction. -/
def lexLtB : List Char → List Char → Bool
  | [], [] => false
  | [], _ :: _ => true
  | _ :: _, [] => false
  | a :: as, b :: bs => if a < b then true else if b < a then false else lexLtB as bs

/-- Boolean `<` on strings (Python's string comparison). -/
def strLtB (a b : String) : Bool :=
  lexLtB a.data b.data

/-- Split a character list at every occurrence of a separator
character; `''.split(sep)` semantics (`[]` maps to `[[]]`). -/
def splitOnChar (sep : Char) : List Char → List (List Char)
  | [] => [[]]
  | c :: rest =>
    if c = sep then [] :: splitOnChar sep rest
    else
      match splitOnChar sep rest with
      | [] => [[c]]
      | g :: gs => (c :: g) :: gs

/-- `s.split('.')` on a string. -/
def splitDots (s : String) : List String :=
  (splitOnChar '.' s.data).map String.mk

/-- `name.endswith('.py')` as a check on the character list. -/
def endsWithPy (s : String) : Bool :=
  s.data.drop (s.data.length - 3) == ['.', 'p', 'y']

/-- `name.startswith('.')`. -/
def startsWithDot (s : String) : Bool :=
  match s.data with
  | [] => false
  | c :: _ => c = '.'

/-- Set-style insert: `s.add(x)` on a Python set modelled as a list. -/
def insertS (x : String) (s : List String) : List String :=
  if x ∈ s then s else s ++ [x]

/-- Dict assignment `m[k] = v`: update in place, append if the key is new. -/
def updateA (m : List (String × List String)) (k : String) (v : List String) :
    List (String × List String) :=
  match m with
  | [] => [(k, v)]
  | (a, b) :: rest => if a = k then (k, v) :: rest else (a, b) :: updateA rest k v

/-- Dict assignment for the `file_to_module` map (String values). -/
def updateM (m : List (String × String)) (k : String) (v : String) :
    List (String × String) :=
  match m with
  | [] => [(k, v)]
  | (a, b) :: rest => if a = k then (k, v) :: rest else (a, b) :: updateM rest k v

/-- The dependency graph: `defaultdict(set)` from module id to its imports. -/
abbrev Graph := List (String × List String)

/-- `self.dependency_graph[u].add(v)` on the defaultdict. -/
def addEdge : Graph → String → String → Graph
  | [], u, v => [(u, [v])]
  | (a, ns) :: rest, u, v =>
    if a = u then (a, insertS v ns) :: rest else (a, ns) :: addEdge rest u v

/-- `self.dependency_graph.get(node, [])`. -/
def neighbors (g : Graph) (u : String) : List String :=
  match g with
  | [] => []
  | (a, ns) :: rest => if a = u then ns else neighbors rest u

/-- `name.split('.')[0]`: the root segment of a dotted import target. -/
def rootOf (dottedName : String) : String :=
  (splitDots dottedName).headD ""

/-- `str(path).replace(os.sep, '.')` for a path given as segments. -/
def dotted (segs : List String) : String :=
  String.intercalate "." segs

/-- `str(rel_path)`: the path segments joined by the separator. -/
def pathStr (segs : List String) : String :=
  String.intercalate "/" segs

/-- `rel_path.stem` for a file name ending in `.py`. -/
def stemOf (name : String) : String :=
  name.dropRight 3

/-- `item.suffix == '.py'`: the name ends in `.py` with a nonempty stem part. -/
def isPyName (name : String) : Bool :=
  endsWithPy name && decide (3 < name.length)

/-- All dotted prefixes `'.'.join(parts[:i+1])` of a module id. -/
def prefixesOf (m : String) : List String :=
  let parts := splitDots m
  (List.range parts.length).map (fun i => String.intercalate "." (parts.take (i + 1)))

/-- The fixed `known_local` allow-list from `_discover_local_modules`. -/
def known_local : List String :=
  ["action", "include", "input", "log", "server", "config", "my_reco"]

/-- One iteration of the `_discover_local_modules` loop on one `.py` file. -/
def discoverStep (st : List String × List (String × String)) (segs : List String) :
    List String × List (String × String) :=
  match segs.getLast? with
  | none => st
  | some name =>
    if isPyName name then
      let locals0 := st.1
      let locals1 :=
        if name = "__init__.py" then
          if segs.dropLast = [] then locals0
          else
            let m := dotted segs.dropLast
            (prefixesOf m).foldl (fun a p => insertS p a) (insertS m locals0)
        else
          insertS (stemOf name) (insertS (dotted (segs.dropLast ++ [stemOf name])) locals0)
      (locals1, updateM st.2 (pathStr segs) (stemOf name))
    else st

/-- `_discover_local_modules`: the local-module set and the
`file_to_module` map, with the `known_local` allow-list unioned in. -/
def discover (files : List (List String)) : List String × List (String × String) :=
  let st := files.foldl discoverStep ([], [])
  (known_local.foldl (fun a k => insertS k a) st.1, st.2)

/-- The statically visible import statements of one parsed source file
(`ast.Import` and `ast.ImportFrom` nodes in walk order). -/
inductive Stmt where
  | imp (names : List String)
  | impFrom (mod : Option String) (level : Nat) (names : List String)
deriving DecidableEq

/-- Registering one absolute import target: add its root name to
`all_imports`, and when the file has an owning module and the root is
local, add the graph edge and the `local_imports` entry. -/
def addImport (locals : List String) (cur : String)
    (st : (List String × List String) × Graph) (dottedName : String) :
    (List String × List String) × Graph :=
  let root := rootOf dottedName
  let all := insertS root st.1.1
  if cur ≠ "" ∧ root ∈ locals then
    ((all, insertS root st.1.2), addEdge st.2 cur root)
  else
    ((all, st.1.2), st.2)

/-- Processing one statement of the `ast.walk` loop in
`_extract_imports_from_file`. -/
def processStmt (locals : List String) (cur : String)
    (st : (List String × List String) × Graph) (s : Stmt) :
    (List String × List String) × Graph :=
  match s with
  | .imp names => names.foldl (addImport locals cur) st
  | .impFrom mod level _ =>
    match mod with
    | none => st
    | some m => if 0 < level then st else addImport locals cur st m

/-- The stdlib-name table from `_get_stdlib_modules`. -/
def stdlib_modules : List String :=
  ["os", "sys", "time", "json", "re", "math", "random", "datetime",
   "pathlib", "collections", "itertools", "functools", "operator",
   "traceback", "logging", "threading", "subprocess", "shutil",
   "tempfile", "glob", "pickle", "csv", "urllib", "http", "socket",
   "ssl", "hashlib", "base64", "uuid", "typing", "abc", "enum",
   "ctypes", "queue", "struct", "array", "bisect", "heapq",
   "weakref", "copy", "pprint", "reprlib", "string", "textwrap",
   "unicodedata", "stringprep", "readline", "rlcompleter",
   "warnings", "contextlib", "io", "email", "mailcap", "mailbox",
   "mimetypes", "binhex", "binascii", "quopri", "uu",
   "html", "xml", "webbrowser", "cgi", "cgitb", "wsgiref",
   "ftplib", "poplib", "imaplib", "nntplib", "smtplib", "smtpd",
   "telnetlib", "socketserver", "xmlrpc",
   "zipfile", "tarfile", "gzip", "bz2", "lzma", "zlib",
   "hmac", "secrets", "argparse", "getopt", "configparser",
   "netrc", "xdrlib", "plistlib", "platform", "errno", "getpass",
   "termios", "tty", "pty", "fcntl", "pipes", "resource", "nis",
   "syslog", "optparse", "imp", "importlib", "concurrent", "asyncio",
   "venv", "ensurepip"]

/-- The import-name to PyPI-package-name table from `_get_package_mappings`. -/
def package_mappings : List (String × String) :=
  [("maa", "MaaFw"),
   ("win32api", "pywin32"),
   ("win32con", "pywin32"),
   ("win32gui", "pywin32"),
   ("win32process", "pywin32"),
   ("win32ui", "pywin32"),
   ("win32clipboard", "pywin32"),
   ("win32file", "pywin32"),
   ("win32pipe", "pywin32"),
   ("win32event", "pywin32"),
   ("win32security", "pywin32"),
   ("win32service", "pywin32"),
   ("win32serviceutil", "pywin32"),
   ("pywintypes", "pywin32"),
   ("pythoncom", "pywin32"),
   ("PIL", "Pillow"),
   ("cv2", "opencv-python"),
   ("sklearn", "scikit-learn"),
   ("yaml", "PyYAML")]

/-- Modelled from the spec: the builtin-name table
(`sys.builtin_module_names`, supplied by the host interpreter as static
configuration, not computed by this repository); a representative value. -/
def builtin_modules : List String :=
  ["_abc", "_ast", "_codecs", "_collections", "_functools", "_imp", "_io",
   "_locale", "_operator", "_signal", "_sre", "_stat", "_string",
   "_symtable", "_thread", "_tracemalloc", "_warnings", "_weakref",
   "atexit", "builtins", "faulthandler", "gc", "marshal", "posix",
   "pwd", "sys", "time", "errno", "itertools"]

/-- One iteration of the `_filter_third_party` loop. -/
def filtStep (builtins stdlibT localsT : List String)
    (acc : List String) (m : String) : List String :=
  if m ∈ builtins ∨ m ∈ stdlibT then acc
  else if m ∈ localsT then acc
  else if m = "" then acc
  else acc ++ [m]

/-- `_filter_third_party`. -/
def filterThirdParty (builtins stdlibT localsT imports : List String) : List String :=
  imports.foldl (filtStep builtins stdlibT localsT) []

/-- `_map_to_packages`. -/
def mapToPackages (imports : List String) : List String :=
  imports.foldl (fun pkgs imp =>
    let p := (package_mappings.lookup imp).getD imp
    if p ∈ pkgs then pkgs else pkgs ++ [p]) []

/-- Insert into a sorted list (ascending string order). -/
def insertSorted (x : String) : List String → List String
  | [] => [x]
  | y :: ys => if strLtB y x then y :: insertSorted x ys else x :: y :: ys

/-- `sorted(...)` on a collection of strings. -/
def sortS (l : List String) : List String :=
  l.foldr insertSorted []

/-- `min(cycle)` on a list of strings (total, junk on the empty list). -/
def listMin : List String → String
  | [] => ""
  | x :: xs => xs.foldl (fun a b => if strLtB b a then b else a) x

/-- Cycle normalization from `_detect_circular_dependencies`:
`cycle[min_idx:] + cycle[:min_idx]` with `min_idx = cycle.index(min(cycle))`. -/
def normalize (c : List String) : List String :=
  let i := c.indexOf (listMin c)
  c.drop i ++ c.take i

/-- One iteration of the deduplication loop of
`_detect_circular_dependencies`. -/
def dedupStep (uniq : List (List String)) (c : List String) : List (List String) :=
  let n := normalize c
  if n ∈ uniq then uniq else uniq ++ [n]

/-- The body of the neighbor loop of the recursive `dfs` of
`_detect_circular_dependencies`, abstracted over the recursive call:
an unvisited neighbor is recursed into (threading the shared `visited`
set), a neighbor on the recursion stack closes a cycle
`path[path.index(neighbor):] + [neighbor]`, and any other visited
neighbor is skipped. -/
def dfsStep (rec : String → List String → List (List String) × List String)
    (path1 rs1 : List String) (acc : List (List String) × List String) (nb : String) :
    List (List String) × List String :=
  if nb ∈ acc.2 then
    if nb ∈ rs1 then
      (acc.1 ++ [path1.drop (path1.indexOf nb) ++ [nb]], acc.2)
    else acc
  else
    let r := rec nb acc.2
    (acc.1 ++ r.1, r.2)

/-- The recursive `dfs` of `_detect_circular_dependencies`, with the
shared mutable `visited` set threaded through the neighbor loop and the
shared `rec_stack` passed down (its end-of-call removal restores it for
the caller, so the caller's value is unchanged).  Python's unbounded
recursion is modelled with a fuel parameter; the detector supplies fuel
exceeding the number of nodes, which bounds the recursion depth since
every nested call marks a previously unvisited node visited. -/
def dfsAux (g : Graph) : Nat → String → List String → List String → List String →
    List (List String) × List String
  | 0, _, _, vis, _ => ([], vis)
  | fuel + 1, node, path, vis, rs =>
    let path1 := path ++ [node]
    let rs1 := insertS node rs
    (neighbors g node).foldl
      (dfsStep (fun nb vis1 => dfsAux g fuel nb path1 vis1 rs1) path1 rs1)
      ([], insertS node vis)

/-- One iteration of the top-level loop of `_detect_circular_dependencies`:
a fresh DFS from every node not yet globally visited. -/
def detectStep (g : Graph) (fuel : Nat)
    (acc : List (List String) × List String) (node : String) :
    List (List String) × List String :=
  if node ∈ acc.2 then acc
  else
    let d := dfsAux g fuel node [] acc.2 []
    (acc.1 ++ d.1, d.2)

/-- `_detect_circular_dependencies`: exhaustive DFS cycle enumeration
followed by normalization-based deduplication. -/
def detectCircular (g : Graph) : List (List String) :=
  let nodes := g.map Prod.fst
  let fuel := g.length + (g.map (fun p => p.2.length)).sum + 1
  let r := nodes.foldl (detectStep g fuel) ([], [])
  r.1.foldl dedupStep []

/-- The accumulating state of the `scan_directory` loop. -/
structure ScanState where
  allImports : List String
  fileImports : List (String × List String)
  fileLocalImports : List (String × List String)
  graph : Graph
  warnings : List String
deriving DecidableEq

/-- The initial `scan_directory` state. -/
def initState : ScanState := ⟨[], [], [], [], []⟩

/-- A source file of the scan: its relative path segments and the
outcome of reading-and-parsing it (`Except.error` models the exception
caught by `_extract_imports_from_file`). -/
abbrev PyFile := List String × Except String (List Stmt)

/-- One iteration of the `scan_directory` loop over one `.py` file,
inlining `_extract_imports_from_file` (which looks up the owning module
in `file_to_module`, walks the parsed statements mutating the shared
dependency graph, and on a read/parse exception prints a warning and
returns the empty sets). -/
def processFile (locals : List String) (f2m : List (String × String))
    (s : ScanState) (file : PyFile) : ScanState :=
  match file.1.getLast? with
  | none => s
  | some name =>
    if startsWithDot name then s
    else
      let p := pathStr file.1
      match file.2 with
      | .error e =>
        { s with
          fileImports := updateA s.fileImports p [],
          fileLocalImports := updateA s.fileLocalImports p [],
          warnings := s.warnings ++ ["警告: 无法解析文件 " ++ p ++ ": " ++ e] }
      | .ok stmts =>
        let cur := (f2m.lookup p).getD ""
        let r := stmts.foldl (processStmt locals cur) (([], []), s.graph)
        { allImports := r.1.1.foldl (fun a x => insertS x a) s.allImports,
          fileImports := updateA s.fileImports p r.1.1,
          fileLocalImports := updateA s.fileLocalImports p r.1.2,
          graph := r.2,
          warnings := s.warnings }

/-- The aggregated result dict returned by `scan_directory`. -/
structure ScanResults where
  all_imports : List String
  file_imports : List (String × List String)
  file_local_imports : List (String × List String)
  third_party_imports : List String
  third_party_packages : List String
  local_modules : List String
  dependency_graph : Graph
  circular_dependencies : List (List String)
deriving DecidableEq

/-- `DependencyScanner` construction plus `scan_directory` on a given
file tree. -/
def scanDirectory (builtins : List String) (files : List PyFile) : ScanResults :=
  let d := discover (files.map Prod.fst)
  let s := files.foldl (processFile d.1 d.2) initState
  let third := filterThirdParty builtins stdlib_modules d.1 s.allImports
  { all_imports := sortS s.allImports,
    file_imports := s.fileImports,
    file_local_imports := s.fileLocalImports,
    third_party_imports := sortS third,
    third_party_packages := sortS (mapToPackages third),
    local_modules := sortS d.1,
    dependency_graph := s.graph,
    circular_dependencies := detectCircular s.graph }

/-- The consecutive-pairs-are-edges test for a walk in the graph. -/
def chainB (g : Graph) : List String → Bool
  | [] => true
  | [_] => true
  | a :: b :: rest => ((neighbors g a).contains b && chainB g (b :: rest))

/-- A closed walk: nonempty, last element equals the first, and every
consecutive pair is an edge. -/
def isClosedWalkB (g : Graph) (c : List String) : Bool :=
  match c with
  | [] => false
  | x :: _ => (decide (c.getLast? = some x)) && chainB g c

/-- A relative import statement: a from-import whose module path has
one or more leading dots (`node.level > 0`). -/
def isRelativeImport : Stmt → Bool
  | .impFrom _ level _ => decide (0 < level)
  | _ => false

/-- The two-file project of the specification's example: a package-init
file `pkg/__init__.py` importing `os` and `pkg.util`, and a plain file
`pkg/util.py` importing `requests`. -/
def projC1 : List PyFile :=
  [(["pkg", "__init__.py"], .ok [.imp ["os"], .imp ["pkg.util"]]),
   (["pkg", "util.py"], .ok [.imp ["requests"]])]

/-- A project whose tree contains a file `os.py` (so the stdlib name
`os` is also a member of the local-module set) and a file `main.py`
importing `os`. -/
def projC3 : List PyFile :=
  [(["os.py"], .ok []), (["main.py"], .ok [.imp ["os"]])]

/-! ### Generic fold lemmas -/

theorem foldl_pres {α β : Type} {P : β → Prop} (f : β → α → β)
    (hf : ∀ b a, P b → P (f b a)) : ∀ (l : List α) (b : β), P b → P (l.foldl f b) := by
  intro l
  induction l with
  | nil => exact fun b h => h
  | cons a t ih => exact fun b h => ih (f b a) (hf b a h)

theorem foldl_mono {α β γ : Type} (f : β → α → β) (m : β → List γ)
    (hf : ∀ b a, m b ⊆ m (f b a)) : ∀ (l : List α) (b : β), m b ⊆ m (l.foldl f b) := by
  intro l
  induction l with
  | nil => exact fun b => List.Subset.refl _
  | cons a t ih => exact fun b => List.Subset.trans (hf b a) (ih (f b a))

/-! ### Set-insert and membership -/

theorem mem_insertS {x y : String} {s : List String} :
    x ∈ insertS y s ↔ x = y ∨ x ∈ s := by
  by_cases h : y ∈ s
  · simp only [insertS, if_pos h]
    constructor
    · exact Or.inr
    · rintro (rfl | hx)
      exacts [h, hx]
  · simp only [insertS, if_neg h, List.mem_append, List.mem_singleton, or_comm]

theorem self_mem_insertS (y : String) (s : List String) : y ∈ insertS y s :=
  mem_insertS.mpr (Or.inl rfl)

theorem subset_insertS (y : String) (s : List String) : s ⊆ insertS y s :=
  fun _ hx => mem_insertS.mpr (Or.inr hx)

theorem mem_foldl_insertS_of_mem {x : String} :
    ∀ (l s : List String), x ∈ l → x ∈ l.foldl (fun a p => insertS p a) s := by
  intro l
  induction l with
  | nil => intro s h; cases h
  | cons p t ih =>
    intro s h
    rcases List.mem_cons.mp h with rfl | hx
    · exact foldl_mono _ id (fun b a => subset_insertS a b) t _ (self_mem_insertS x s)
    · exact ih _ hx

theorem subset_foldl_insertS (l s : List String) :
    s ⊆ l.foldl (fun a p => insertS p a) s :=
  foldl_mono _ id (fun b a => subset_insertS a b) l s

/-! ### The string comparison used by Python -/

theorem lexLtB_iff : ∀ as bs : List Char, lexLtB as bs = true ↔ as < bs
  | [], [] => by
    constructor
    · intro h
      simp [lexLtB] at h
    · intro h
      cases h
  | [], b :: bs => by
    constructor
    · intro _
      exact List.Lex.nil
    · intro _
      rfl
  | a :: as, [] => by
    constructor
    · intro h
      simp [lexLtB] at h
    · intro h
      cases h
  | a :: as, b :: bs => by
    constructor
    · intro h
      by_cases hab : a < b
      · exact List.Lex.rel hab
      · by_cases hba : b < a
        · simp [lexLtB, hab, hba] at h
        · have hEq : a = b := le_antisymm (le_of_not_lt hba) (le_of_not_lt hab)
          subst hEq
          exact List.Lex.cons ((lexLtB_iff as bs).mp (by simpa [lexLtB, hab, hba] using h))
    · intro h
      cases h with
      | rel hab => simp [lexLtB, hab]
      | cons hlt => simp [lexLtB, lt_irrefl, (lexLtB_iff as bs).mpr hlt]

theorem strLtB_iff (a b : String) : strLtB a b = true ↔ a < b := by
  rw [String.lt_iff_toList_lt]
  exact lexLtB_iff a.data b.data

/-! ### `min` on a list of strings -/

theorem foldlMin_mem :
    ∀ (xs : List String) (a : String),
      xs.foldl (fun a b => if strLtB b a then b else a) a ∈ a :: xs := by
  intro xs
  induction xs with
  | nil => intro a; exact List.mem_singleton.mpr rfl
  | cons b t ih =>
    intro a
    simp only [List.foldl_cons]
    rcases List.mem_cons.mp (ih (if strLtB b a then b else a)) with h | h
    · rw [h]
      by_cases hb : strLtB b a = true
      · simp [hb]
      · simp [hb]
    · exact List.mem_cons_of_mem _ (List.mem_cons_of_mem _ h)

theorem foldlMin_le :
    ∀ (xs : List String) (a x : String), x ∈ a :: xs →
      xs.foldl (fun a b => if strLtB b a then b else a) a ≤ x := by
  intro xs
  induction xs with
  | nil =>
    intro a x hx
    rw [List.mem_singleton.mp hx]
    exact le_refl _
  | cons b t ih =>
    intro a x hx
    simp only [List.foldl_cons]
    have hmab : (if strLtB b a then b else a) ≤ a ∧ (if strLtB b a then b else a) ≤ b := by
      by_cases hb : strLtB b a = true
      · simp only [if_pos hb]
        exact ⟨le_of_lt ((strLtB_iff b a).mp hb), le_refl b⟩
      · simp only [if_neg hb]
        refine ⟨le_refl a, ?_⟩
        have := (strLtB_iff b a).not.mp (by simp [hb])
        exact le_of_not_lt this
    rcases List.mem_cons.mp hx with rfl | hx2
    · exact le_trans (ih _ _ (List.mem_cons_self _ _)) hmab.1
    · rcases List.mem_cons.mp hx2 with rfl | hx3
      · exact le_trans (ih _ _ (List.mem_cons_self _ _)) hmab.2
      · exact ih _ _ (List.mem_cons_of_mem _ hx3)

theorem listMin_mem : ∀ {c : List String}, c ≠ [] → listMin c ∈ c
  | [], h => absurd rfl h
  | x :: xs, _ => foldlMin_mem xs x

theorem listMin_le : ∀ {c : List String} {x : String}, x ∈ c → listMin c ≤ x
  | [], _, hx => absurd hx (List.not_mem_nil _)
  | _ :: xs, _, hx => foldlMin_le xs _ _ hx

theorem listMin_congr {c d : List String} (hc : c ≠ []) (hd : d ≠ [])
    (h : ∀ x, x ∈ c ↔ x ∈ d) : listMin c = listMin d :=
  le_antisymm (listMin_le ((h _).mpr (listMin_mem hd))) (listMin_le ((h _).mp (listMin_mem hc)))

/-! ### Cycle normalization -/

theorem normalize_eq_rotate (c : List String) :
    normalize c = c.rotate (c.indexOf (listMin c)) := by
  rw [List.rotate_eq_drop_append_take List.indexOf_le_length]
  rfl

theorem normalize_length (c : List String) : (normalize c).length = c.length := by
  rw [normalize_eq_rotate, List.length_rotate]

theorem normalize_ne_nil {c : List String} (h : c ≠ []) : normalize c ≠ [] := by
  intro hc
  apply h
  have hl := normalize_length c
  rw [hc] at hl
  exact List.length_eq_zero.mp hl.symm

theorem mem_normalize {x : String} {c : List String} : x ∈ normalize c ↔ x ∈ c := by
  rw [normalize_eq_rotate]
  exact List.mem_rotate

theorem normalize_eq_min_cons {c : List String} (h : c ≠ []) :
    normalize c =
      listMin c :: (c.drop (c.indexOf (listMin c) + 1) ++ c.take (c.indexOf (listMin c))) := by
  have hi : c.indexOf (listMin c) < c.length := List.indexOf_lt_length.mpr (listMin_mem h)
  show c.drop (c.indexOf (listMin c)) ++ c.take (c.indexOf (listMin c)) = _
  rw [List.drop_eq_getElem_cons hi, List.getElem_indexOf hi]
  rfl

theorem normalize_idem (c : List String) : normalize (normalize c) = normalize c := by
  by_cases h : c = []
  · subst h
    rfl
  · have hmin : listMin (normalize c) = listMin c :=
      listMin_congr (normalize_ne_nil h) h (fun _ => mem_normalize)
    have hd := normalize_eq_min_cons h
    show (normalize c).drop ((normalize c).indexOf (listMin (normalize c))) ++
        (normalize c).take ((normalize c).indexOf (listMin (normalize c))) = normalize c
    rw [hmin, hd, List.indexOf_cons_self]
    simp

theorem normalize_rotate_of_nodup (cs : List String) (k : Nat) (h : cs.Nodup) :
    normalize (cs.rotate k) = normalize cs := by
  by_cases hc : cs = []
  · subst hc
    rfl
  · have hlen : 0 < cs.length := List.length_pos.mpr hc
    have hrot_ne : cs.rotate k ≠ [] := by
      intro hh
      apply hc
      have hl := congrArg List.length hh
      rw [List.length_rotate] at hl
      exact List.length_eq_zero.mp hl
    have hmin : listMin (cs.rotate k) = listMin cs :=
      listMin_congr hrot_ne hc (fun _ => List.mem_rotate)
    have hmem_min : listMin cs ∈ cs := listMin_mem hc
    have hi : cs.indexOf (listMin cs) < cs.length := List.indexOf_lt_length.mpr hmem_min
    have hj : (cs.rotate k).indexOf (listMin cs) < (cs.rotate k).length :=
      List.indexOf_lt_length.mpr (List.mem_rotate.mpr hmem_min)
    have h1 : (cs.rotate k)[(cs.rotate k).indexOf (listMin cs)] = listMin cs :=
      List.getElem_indexOf hj
    have h2 := List.getElem_rotate cs k ((cs.rotate k).indexOf (listMin cs)) hj
    have hmod : ((cs.rotate k).indexOf (listMin cs) + k) % cs.length < cs.length :=
      Nat.mod_lt _ hlen
    have h3 : cs[((cs.rotate k).indexOf (listMin cs) + k) % cs.length] = listMin cs :=
      h2.symm.trans h1
    have hidx : ((cs.rotate k).indexOf (listMin cs) + k) % cs.length = cs.indexOf (listMin cs) :=
      (h.getElem_inj_iff).mp (h3.trans (List.getElem_indexOf hi).symm)
    rw [normalize_eq_rotate (cs.rotate k), hmin, List.rotate_rotate, normalize_eq_rotate cs]
    rw [← List.rotate_mod cs (k + (cs.rotate k).indexOf (listMin cs))]
    rw [Nat.add_comm k ((cs.rotate k).indexOf (listMin cs))]
    rw [hidx]

/-! ### Third-party filtering -/

theorem not_mem_filt_fold {builtins stdlibT localsT : List String} {nm : String}
    (h : nm ∈ builtins ∨ nm ∈ stdlibT ∨ nm ∈ localsT) :
    ∀ (imports acc : List String), nm ∉ acc →
      nm ∉ imports.foldl (filtStep builtins stdlibT localsT) acc := by
  intro imports
  induction imports with
  | nil => exact fun acc hacc => hacc
  | cons m t ih =>
    intro acc hacc
    apply ih
    by_cases h1 : m ∈ builtins ∨ m ∈ stdlibT
    · simpa [filtStep, h1] using hacc
    · by_cases h2 : m ∈ localsT
      · simpa [filtStep, h1, h2] using hacc
      · by_cases h3 : m = ""
        · simpa [filtStep, h1, h2, h3] using hacc
        · simp only [filtStep, if_neg h1, if_neg h2, if_neg h3]
          intro hmem
          rcases List.mem_append.mp hmem with ha | hb
          · exact hacc ha
          · have hm : nm = m := List.mem_singleton.mp hb
            subst hm
            rcases h with hh | hh | hh
            · exact h1 (Or.inl hh)
            · exact h1 (Or.inr hh)
            · exact h2 hh

theorem not_mem_filterThirdParty {builtins stdlibT localsT : List String} {nm : String}
    (h : nm ∈ builtins ∨ nm ∈ stdlibT ∨ nm ∈ localsT) (imports : List String) :
    nm ∉ filterThirdParty builtins stdlibT localsT imports :=
  not_mem_filt_fold h imports [] (List.not_mem_nil nm)

/-! ### Graph update -/

theorem neighbors_addEdge (g : Graph) (u v w : String) :
    neighbors (addEdge g u v) w =
      if w = u then insertS v (neighbors g u) else neighbors g w := by
  induction g with
  | nil =>
    simp only [addEdge, neighbors]
    by_cases h : w = u
    · subst h
      simp [insertS]
    · have h' : ¬ u = w := fun hh => h hh.symm
      simp [h, h']
  | cons p rest ih =>
    obtain ⟨a, ns⟩ := p
    simp only [addEdge]
    by_cases hau : a = u
    · subst hau
      simp only [if_pos rfl, neighbors]
      by_cases hw : a = w
      · subst hw
        simp
      · have hw' : ¬ w = a := fun hh => hw hh.symm
        simp [hw, hw']
    · simp only [if_neg hau, neighbors]
      by_cases hw : a = w
      · subst hw
        have hau' : ¬ a = u := hau
        simp [hau']
      · simp [hw, ih]

theorem neighbors_ne_nil_key {g : Graph} {u : String} (h : neighbors g u ≠ []) :
    u ∈ g.map Prod.fst := by
  induction g with
  | nil => exact absurd rfl h
  | cons p rest ih =>
    obtain ⟨a, ns⟩ := p
    simp only [neighbors] at h
    by_cases hau : a = u
    · subst hau
      exact List.mem_cons_self _ _
    · rw [if_neg hau] at h
      exact List.mem_cons_of_mem _ (ih h)

/-! ### Module catalog -/

theorem discoverStep_locals_mono (st : List String × List (String × String))
    (segs : List String) : st.1 ⊆ (discoverStep st segs).1 := by
  unfold discoverStep
  cases hl : segs.getLast? with
  | none => exact fun _ hx => hx
  | some name =>
    by_cases hpy : isPyName name = true
    · simp only [hpy, if_true]
      by_cases hinit : name = "__init__.py"
      · simp only [if_pos hinit]
        by_cases hpar : segs.dropLast = []
        · simp only [if_pos hpar]
          exact fun _ hx => hx
        · simp only [if_neg hpar]
          exact List.Subset.trans (subset_insertS _ _) (subset_foldl_insertS _ _)
      · simp only [if_neg hinit]
        exact List.Subset.trans (subset_insertS _ _) (subset_insertS _ _)
    · simp only [Bool.not_eq_true] at hpy
      simp only [hpy, Bool.false_eq_true, if_false]
      exact fun _ hx => hx

theorem discover_fold_locals_mono (files : List (List String))
    (st : List String × List (String × String)) :
    st.1 ⊆ (files.foldl discoverStep st).1 :=
  foldl_mono discoverStep (fun st => st.1) discoverStep_locals_mono files st

theorem mem_discover_of_step {x : String} {files : List (List String)} {segs : List String}
    (hmem : segs ∈ files)
    (hx : ∀ st : List String × List (String × String), x ∈ (discoverStep st segs).1) :
    x ∈ (discover files).1 := by
  obtain ⟨l1, l2, rfl⟩ := List.append_of_mem hmem
  simp only [discover, List.foldl_append, List.foldl_cons]
  exact subset_foldl_insertS known_local _
    (discover_fold_locals_mono l2 _ (hx (l1.foldl discoverStep ([], []))))

theorem discoverStep_init_mem (st : List String × List (String × String))
    (segs : List String) (h1 : segs.getLast? = some "__init__.py")
    (h2 : segs.dropLast ≠ []) :
    ∀ p ∈ prefixesOf (dotted segs.dropLast), p ∈ (discoverStep st segs).1 := by
  intro p hp
  unfold discoverStep
  rw [h1]
  have hpy : isPyName "__init__.py" = true := by decide
  simp only [hpy, if_true, if_pos rfl, if_neg h2]
  exact mem_foldl_insertS_of_mem _ _ hp

theorem discoverStep_plain_mem (st : List String × List (String × String))
    (segs : List String) (name : String) (h1 : segs.getLast? = some name)
    (h2 : name ≠ "__init__.py") (h3 : isPyName name = true) :
    dotted (segs.dropLast ++ [stemOf name]) ∈ (discoverStep st segs).1 ∧
      stemOf name ∈ (discoverStep st segs).1 := by
  unfold discoverStep
  rw [h1]
  simp only [h3, if_true, if_neg h2]
  exact ⟨subset_insertS _ _ (self_mem_insertS _ _), self_mem_insertS _ _⟩

/-! ### Relative imports are dropped -/

theorem processStmt_relative_noop (locals : List String) (cur : String)
    (st : (List String × List String) × Graph) (s : Stmt)
    (h : isRelativeImport s = true) : processStmt locals cur st s = st := by
  cases s with
  | imp names => simp [isRelativeImport] at h
  | impFrom mod level names =>
    have hl : 0 < level := by simpa [isRelativeImport] using h
    cases mod with
    | none => rfl
    | some m => simp [processStmt, if_pos hl]

/-! ### Edge targets pass the local-membership test -/

theorem addImport_graph_cases (locals : List String) (cur : String)
    (st : (List String × List String) × Graph) (d : String) :
    (addImport locals cur st d).2 =
      if cur ≠ "" ∧ rootOf d ∈ locals then addEdge st.2 cur (rootOf d) else st.2 := by
  by_cases hc : cur ≠ "" ∧ rootOf d ∈ locals <;> simp [addImport, hc]

theorem addImport_targets (locals : List String) (cur : String)
    (st : (List String × List String) × Graph) (d : String)
    (hst : ∀ u v, v ∈ neighbors st.2 u → v ∈ locals) :
    ∀ u v, v ∈ neighbors (addImport locals cur st d).2 u → v ∈ locals := by
  intro u v hv
  rw [addImport_graph_cases] at hv
  by_cases hc : cur ≠ "" ∧ rootOf d ∈ locals
  · rw [if_pos hc, neighbors_addEdge] at hv
    by_cases hu : u = cur
    · rw [if_pos hu] at hv
      rcases mem_insertS.mp hv with rfl | hold
      · exact hc.2
      · exact hst cur v hold
    · rw [if_neg hu] at hv
      exact hst u v hv
  · rw [if_neg hc] at hv
    exact hst u v hv

theorem processStmt_targets (locals : List String) (cur : String)
    (st : (List String × List String) × Graph) (s : Stmt)
    (hst : ∀ u v, v ∈ neighbors st.2 u → v ∈ locals) :
    ∀ u v, v ∈ neighbors (processStmt locals cur st s).2 u → v ∈ locals := by
  cases s with
  | imp names =>
    exact foldl_pres (addImport locals cur)
      (fun b a hb => addImport_targets locals cur b a hb) names st hst
  | impFrom mod level names =>
    cases mod with
    | none => exact hst
    | some m =>
      by_cases hl : 0 < level
      · simpa [processStmt, if_pos hl] using hst
      · simpa [processStmt, if_neg hl] using addImport_targets locals cur st m hst

theorem processFile_targets (locals : List String) (f2m : List (String × String))
    (s : ScanState) (file : PyFile)
    (hs : ∀ u v, v ∈ neighbors s.graph u → v ∈ locals) :
    ∀ u v, v ∈ neighbors (processFile locals f2m s file).graph u → v ∈ locals := by
  intro u v hv
  unfold processFile at hv
  split at hv
  · exact hs u v hv
  · split at hv
    · exact hs u v hv
    · split at hv
      · exact hs u v hv
      · refine foldl_pres (processStmt locals ((f2m.lookup (pathStr file.1)).getD ""))
          (fun b a hb => processStmt_targets locals _ b a hb) _
          (([], []), s.graph) ?_ u v hv
        exact hs

theorem scan_graph_targets (locals : List String) (f2m : List (String × String))
    (files : List PyFile) (s0 : ScanState)
    (h0 : ∀ u v, v ∈ neighbors s0.graph u → v ∈ locals) :
    ∀ u v, v ∈ neighbors ((files.foldl (processFile locals f2m) s0).graph) u → v ∈ locals :=
  foldl_pres (processFile locals f2m)
    (fun b a hb => processFile_targets locals f2m b a hb) files s0 h0

/-! ### Parse failure handling -/

theorem processFile_error_eq (locals : List String) (f2m : List (String × String))
    (s : ScanState) (segs : List String) (name e : String)
    (h1 : segs.getLast? = some name) (h2 : startsWithDot name = false) :
    processFile locals f2m s (segs, Except.error e) =
      { s with
        fileImports := updateA s.fileImports (pathStr segs) [],
        fileLocalImports := updateA s.fileLocalImports (pathStr segs) [],
        warnings := s.warnings ++ ["警告: 无法解析文件 " ++ pathStr segs ++ ": " ++ e] } := by
  unfold processFile
  split
  · rename_i hnone
    rw [h1] at hnone
    cases hnone
  · rename_i name' hname
    rw [h1] at hname
    obtain rfl : name = name' := Option.some.inj hname
    split
    · rename_i hdot
      rw [h2] at hdot
      cases hdot
    · rfl

theorem processFile_congr (locals : List String) (f2m : List (String × String))
    (file : PyFile) (s s' : ScanState)
    (hg : s.graph = s'.graph) (ha : s.allImports = s'.allImports) :
    (processFile locals f2m s file).graph = (processFile locals f2m s' file).graph ∧
      (processFile locals f2m s file).allImports =
        (processFile locals f2m s' file).allImports := by
  unfold processFile
  split
  · exact ⟨hg, ha⟩
  · split
    · exact ⟨hg, ha⟩
    · split
      · exact ⟨hg, ha⟩
      · rw [hg, ha]
        exact ⟨rfl, rfl⟩

theorem scanFold_congr (locals : List String) (f2m : List (String × String)) :
    ∀ (files : List PyFile) (s s' : ScanState),
      s.graph = s'.graph → s.allImports = s'.allImports →
      ((files.foldl (processFile locals f2m) s).graph =
          (files.foldl (processFile locals f2m) s').graph ∧
        (files.foldl (processFile locals f2m) s).allImports =
          (files.foldl (processFile locals f2m) s').allImports) := by
  intro files
  induction files with
  | nil => exact fun s s' hg ha => ⟨hg, ha⟩
  | cons f t ih =>
    intro s s' hg ha
    obtain ⟨hg', ha'⟩ := processFile_congr locals f2m f s s' hg ha
    exact ih _ _ hg' ha'

/-! ### Cycle detection: DFS invariants -/

theorem dfsStep_cases (rec : String → List String → List (List String) × List String)
    (p1 r1 : List String) (acc : List (List String) × List String) (nb : String) :
    dfsStep rec p1 r1 acc nb =
      if nb ∈ acc.2 then
        if nb ∈ r1 then (acc.1 ++ [p1.drop (p1.indexOf nb) ++ [nb]], acc.2) else acc
      else (acc.1 ++ (rec nb acc.2).1, (rec nb acc.2).2) := by
  unfold dfsStep
  by_cases h : nb ∈ acc.2 <;> simp [h]

theorem dfsStep_vis_mono {rec : String → List String → List (List String) × List String}
    (hrec : ∀ nb vis, vis ⊆ (rec nb vis).2) (p1 r1 : List String)
    (acc : List (List String) × List String) (nb : String) :
    acc.2 ⊆ (dfsStep rec p1 r1 acc nb).2 := by
  rw [dfsStep_cases]
  by_cases h1 : nb ∈ acc.2
  · by_cases h2 : nb ∈ r1
    · simp [h1, h2]
    · simp [h1, h2]
  · rw [if_neg h1]
    exact hrec nb acc.2

theorem dfsStep_cyc_mono (rec : String → List String → List (List String) × List String)
    (p1 r1 : List String) (acc : List (List String) × List String) (nb : String)
    {c : List String} (hc : c ∈ acc.1) : c ∈ (dfsStep rec p1 r1 acc nb).1 := by
  rw [dfsStep_cases]
  by_cases h1 : nb ∈ acc.2
  · by_cases h2 : nb ∈ r1
    · rw [if_pos h1, if_pos h2]
      exact List.mem_append.mpr (Or.inl hc)
    · rw [if_pos h1, if_neg h2]
      exact hc
  · rw [if_neg h1]
    exact List.mem_append.mpr (Or.inl hc)

theorem dfsAux_vis_mono (g : Graph) :
    ∀ (fuel : Nat) (node : String) (path vis rs : List String),
      vis ⊆ (dfsAux g fuel node path vis rs).2 := by
  intro fuel
  induction fuel with
  | zero => exact fun node path vis rs _ hx => hx
  | succ fuel ih =>
    intro node path vis rs
    simp only [dfsAux]
    have hsub := foldl_mono
      (dfsStep (fun nb vis1 => dfsAux g fuel nb (path ++ [node]) vis1 (insertS node rs))
        (path ++ [node]) (insertS node rs))
      (fun acc => acc.2)
      (fun b a => dfsStep_vis_mono
        (fun nb vis1 => ih nb (path ++ [node]) vis1 (insertS node rs)) _ _ b a)
      (neighbors g node) ([], insertS node vis)
    exact List.Subset.trans (subset_insertS node vis) hsub

theorem dfsAux_node_mem (g : Graph) (fuel : Nat) (node : String) (path vis rs : List String) :
    node ∈ (dfsAux g (fuel + 1) node path vis rs).2 := by
  simp only [dfsAux]
  have hsub := foldl_mono
    (dfsStep (fun nb vis1 => dfsAux g fuel nb (path ++ [node]) vis1 (insertS node rs))
      (path ++ [node]) (insertS node rs))
    (fun acc => acc.2)
    (fun b a => dfsStep_vis_mono
      (fun nb vis1 => dfsAux_vis_mono g fuel nb (path ++ [node]) vis1 (insertS node rs)) _ _ b a)
    (neighbors g node) ([], insertS node vis)
  exact hsub (self_mem_insertS node vis)

theorem dfsAux_selfLoop (g : Graph) (A : String) (hA : A ∈ neighbors g A) :
    ∀ (fuel : Nat) (node : String) (path vis rs : List String),
      (∀ x ∈ path, x ∈ vis) → node ∉ vis → A ∉ vis →
      A ∈ (dfsAux g fuel node path vis rs).2 →
      [A, A] ∈ (dfsAux g fuel node path vis rs).1 := by
  intro fuel
  induction fuel with
  | zero =>
    intro node path vis rs hpath hnode hAvis hAin
    exact absurd hAin hAvis
  | succ fuel ih =>
    intro node path vis rs hpath hnode hAvis hAin
    simp only [dfsAux] at hAin ⊢
    by_cases hnA : node = A
    · subst hnA
      obtain ⟨l1, l2, hsplit⟩ := List.append_of_mem hA
      rw [hsplit, List.foldl_append, List.foldl_cons]
      have hmemN : node ∈ (l1.foldl
          (dfsStep (fun nb vis1 => dfsAux g fuel nb (path ++ [node]) vis1 (insertS node rs))
            (path ++ [node]) (insertS node rs)) ([], insertS node vis)).2 :=
        foldl_mono
          (dfsStep (fun nb vis1 => dfsAux g fuel nb (path ++ [node]) vis1 (insertS node rs))
            (path ++ [node]) (insertS node rs))
          (fun acc => acc.2)
          (fun b a => dfsStep_vis_mono
            (fun nb vis1 => dfsAux_vis_mono g fuel nb (path ++ [node]) vis1 (insertS node rs))
            _ _ b a)
          l1 ([], insertS node vis) (self_mem_insertS node vis)
      have hstep : [node, node] ∈ ((dfsStep
          (fun nb vis1 => dfsAux g fuel nb (path ++ [node]) vis1 (insertS node rs))
          (path ++ [node]) (insertS node rs))
          (l1.foldl
            (dfsStep (fun nb vis1 => dfsAux g fuel nb (path ++ [node]) vis1 (insertS node rs))
              (path ++ [node]) (insertS node rs)) ([], insertS node vis)) node).1 := by
        rw [dfsStep_cases, if_pos hmemN, if_pos (self_mem_insertS node rs)]
        have hNpath : node ∉ path := fun hp => hAvis (hpath node hp)
        have hidx : (path ++ [node]).indexOf node = path.length := by
          rw [List.indexOf_append_of_not_mem hNpath, List.indexOf_cons_self]
          exact Nat.add_zero _
        rw [hidx, List.drop_left]
        simp
      exact foldl_pres _ (fun b a hb => dfsStep_cyc_mono _ _ _ b a hb) l2 _ hstep
    · have hinv : ∀ (nbs : List String) (acc : List (List String) × List String),
          (∀ x ∈ path ++ [node], x ∈ acc.2) → (A ∈ acc.2 → [A, A] ∈ acc.1) →
          A ∈ (nbs.foldl
            (dfsStep (fun nb vis1 => dfsAux g fuel nb (path ++ [node]) vis1 (insertS node rs))
              (path ++ [node]) (insertS node rs)) acc).2 →
          [A, A] ∈ (nbs.foldl
            (dfsStep (fun nb vis1 => dfsAux g fuel nb (path ++ [node]) vis1 (insertS node rs))
              (path ++ [node]) (insertS node rs)) acc).1 := by
        intro nbs
        induction nbs with
        | nil => exact fun acc _ hAcc hAf => hAcc hAf
        | cons nb rest ihn =>
          intro acc hp hAcc hAf
          rw [List.foldl_cons] at hAf ⊢
          refine ihn _ ?_ ?_ hAf
          · intro x hx
            exact dfsStep_vis_mono
              (fun nb1 vis1 => dfsAux_vis_mono g fuel nb1 (path ++ [node]) vis1 (insertS node rs))
              _ _ acc nb (hp x hx)
          · intro hAF
            rw [dfsStep_cases] at hAF ⊢
            by_cases h1 : nb ∈ acc.2
            · by_cases h2 : nb ∈ insertS node rs
              · rw [if_pos h1, if_pos h2] at hAF ⊢
                exact List.mem_append.mpr (Or.inl (hAcc hAF))
              · rw [if_pos h1, if_neg h2] at hAF ⊢
                exact hAcc hAF
            · rw [if_neg h1] at hAF ⊢
              by_cases hAacc : A ∈ acc.2
              · exact List.mem_append.mpr (Or.inl (hAcc hAacc))
              · have hrec := ih nb (path ++ [node]) acc.2 (insertS node rs) hp h1 hAacc hAF
                exact List.mem_append.mpr (Or.inr hrec)
      refine hinv (neighbors g node) ([], insertS node vis) ?_ ?_ hAin
      · intro x hx
        rcases List.mem_append.mp hx with hx1 | hx2
        · exact subset_insertS node vis (hpath x hx1)
        · rw [List.mem_singleton.mp hx2]
          exact self_mem_insertS node vis
      · intro hAx
        rcases mem_insertS.mp hAx with h | h
        · exact absurd h.symm hnA
        · exact absurd h hAvis

/-! ### Cycle detection: top-level loop and deduplication -/

theorem detectStep_vis_mono (g : Graph) (fuel : Nat)
    (acc : List (List String) × List String) (node : String) :
    acc.2 ⊆ (detectStep g fuel acc node).2 := by
  unfold detectStep
  by_cases h : node ∈ acc.2
  · simp [h]
  · rw [if_neg h]
    exact dfsAux_vis_mono g fuel node [] acc.2 []

theorem detectStep_cyc_mono (g : Graph) (fuel : Nat)
    (acc : List (List String) × List String) (node : String)
    {c : List String} (hc : c ∈ acc.1) : c ∈ (detectStep g fuel acc node).1 := by
  unfold detectStep
  by_cases h : node ∈ acc.2
  · simp [h, hc]
  · rw [if_neg h]
    exact List.mem_append.mpr (Or.inl hc)

theorem detectStep_selfLoop (g : Graph) (A : String) (hA : A ∈ neighbors g A)
    (fuel : Nat) (acc : List (List String) × List String) (node : String)
    (hU : A ∈ acc.2 → [A, A] ∈ acc.1) :
    A ∈ (detectStep g fuel acc node).2 → [A, A] ∈ (detectStep g fuel acc node).1 := by
  intro h2
  unfold detectStep at h2 ⊢
  by_cases h : node ∈ acc.2
  · rw [if_pos h] at h2 ⊢
    exact hU h2
  · rw [if_neg h] at h2 ⊢
    by_cases hAacc : A ∈ acc.2
    · exact List.mem_append.mpr (Or.inl (hU hAacc))
    · have hrec := dfsAux_selfLoop g A hA fuel node [] acc.2 []
        (fun x hx => absurd hx (List.not_mem_nil x)) h hAacc h2
      exact List.mem_append.mpr (Or.inr hrec)

theorem detect_key_visited (g : Graph) (k : Nat) :
    ∀ (nodes : List String) (acc : List (List String) × List String) (A : String),
      A ∈ nodes → A ∈ (nodes.foldl (detectStep g (k + 1)) acc).2 := by
  intro nodes
  induction nodes with
  | nil => intro acc A h; cases h
  | cons n rest ihn =>
    intro acc A h
    rw [List.foldl_cons]
    rcases List.mem_cons.mp h with rfl | hmem
    · refine foldl_mono (detectStep g (k + 1)) (fun acc => acc.2)
        (fun b a => detectStep_vis_mono g (k + 1) b a) rest _ ?_
      unfold detectStep
      by_cases hv : A ∈ acc.2
      · rw [if_pos hv]
        exact hv
      · rw [if_neg hv]
        exact dfsAux_node_mem g k A [] acc.2 []
    · exact ihn _ A hmem

theorem detect_fold_selfLoop (g : Graph) (A : String) (hA : A ∈ neighbors g A) (fuel : Nat) :
    ∀ (nodes : List String) (acc : List (List String) × List String),
      (A ∈ acc.2 → [A, A] ∈ acc.1) →
      A ∈ (nodes.foldl (detectStep g fuel) acc).2 →
      [A, A] ∈ (nodes.foldl (detectStep g fuel) acc).1 := by
  intro nodes
  induction nodes with
  | nil => exact fun acc hU h => hU h
  | cons n rest ihn =>
    intro acc hU h
    rw [List.foldl_cons] at h ⊢
    exact ihn _ (detectStep_selfLoop g A hA fuel acc n hU) h

theorem dedup_mono :
    ∀ (L u : List (List String)) (c : List String), c ∈ u → c ∈ L.foldl dedupStep u := by
  intro L
  induction L with
  | nil => exact fun u c h => h
  | cons d rest ih =>
    intro u c h
    rw [List.foldl_cons]
    apply ih
    show c ∈ if normalize d ∈ u then u else u ++ [normalize d]
    by_cases hm : normalize d ∈ u
    · rw [if_pos hm]
      exact h
    · rw [if_neg hm]
      exact List.mem_append.mpr (Or.inl h)

theorem dedup_mem_of_fixed :
    ∀ (L u : List (List String)) (c : List String), c ∈ L → normalize c = c →
      c ∈ L.foldl dedupStep u := by
  intro L
  induction L with
  | nil => intro u c h; cases h
  | cons d rest ih =>
    intro u c hc hn
    rw [List.foldl_cons]
    rcases List.mem_cons.mp hc with rfl | hmem
    · apply dedup_mono
      show c ∈ if normalize c ∈ u then u else u ++ [normalize c]
      rw [hn]
      by_cases hm : c ∈ u
      · rw [if_pos hm]
        exact hm
      · rw [if_neg hm]
        exact List.mem_append.mpr (Or.inr (List.mem_singleton.mpr rfl))
    · exact ih _ c hmem hn

theorem normalize_pair_self (A : String) : normalize [A, A] = [A, A] := by
  have h1 : listMin [A, A] = A := by
    simp [listMin, ite_self]
  show [A, A].drop ([A, A].indexOf (listMin [A, A])) ++ [A, A].take ([A, A].indexOf (listMin [A, A])) = [A, A]
  rw [h1, List.indexOf_cons_self]
  simp

/-! ### Claim theorems -/

/-- C1 (counterexample): in the two-file project `pkg/__init__.py`
(importing `os` and `pkg.util`) and `pkg/util.py` (importing
`requests`), the dependency graph does not contain the edge
`pkg -> pkg.util` claimed by the specification: the owner recorded for
a package-init file is the filename stem `__init__`, and edge targets
are root names only. -/
theorem pkg_project_no_claimed_edge :
    ¬ ("pkg.util" ∈ neighbors (scanDirectory builtin_modules projC1).dependency_graph "pkg") := by
  decide

/-- C1 (amended): for that project the third-party package list is
exactly `[requests]` (containing neither `os` nor `pkg.util`), and the
dependency graph's only edge is `__init__ -> pkg`. -/
theorem pkg_project_scan_result :
    (scanDirectory builtin_modules projC1).third_party_packages = ["requests"] ∧
    "os" ∉ (scanDirectory builtin_modules projC1).third_party_packages ∧
    "pkg.util" ∉ (scanDirectory builtin_modules projC1).third_party_packages ∧
    (scanDirectory builtin_modules projC1).dependency_graph = [("__init__", ["pkg"])] := by
  decide

/-- C2 (counterexample): rotating the closed-walk cycle `[a, b, a]` by
one and normalizing yields `[a, a, b]`, not the original representative
`[a, b, a]`; likewise the other closed form `[b, a, b]` of the same
underlying cycle normalizes to `[a, b, b]`, a different representative,
so rotation invariance of normalization fails on cycles as the detector
produces them. -/
theorem normalize_rotation_counterexample :
    ¬ (normalize (List.rotate ["a", "b", "a"] 1) = normalize ["a", "b", "a"]) ∧
    ¬ (normalize ["b", "a", "b"] = normalize ["a", "b", "a"]) := by
  decide

/-- C2 (amended): normalization is idempotent on every cycle, and
normalizing after rotation agrees with normalizing the original for
every duplicate-free cycle (the rotation invariance fails only because
a detected cycle repeats its first element at the end). -/
theorem normalize_idem_and_rotation_nodup :
    (∀ c : List String, normalize (normalize c) = normalize c) ∧
    (∀ (c : List String) (k : Nat), c.Nodup → normalize (c.rotate k) = normalize c) :=
  ⟨normalize_idem, normalize_rotate_of_nodup⟩

/-- C2 (witness). -/
theorem normalize_idem_and_rotation_nodup_witness :
    normalize (normalize ["b", "a", "b"]) = normalize ["b", "a", "b"] ∧
    normalize (List.rotate ["b", "a"] 1) = normalize ["b", "a"] :=
  ⟨normalize_idem_and_rotation_nodup.1 ["b", "a", "b"],
   normalize_idem_and_rotation_nodup.2 ["b", "a"] 1 (by decide)⟩

/-- C3 (counterexample): in a project with a local file `os.py`, the
name `os` is in both the stdlib table and the local-module set; it is
kept out of the third-party list, but the extractor (which only tests
local membership) records the dependency-graph edge `main -> os` and
puts `os` into `main.py`'s local-import set, contradicting the claim
that no edge and no local-import entry is produced for such names. -/
theorem stdlib_local_overlap_counterexample :
    "os" ∈ stdlib_modules ∧
    "os" ∈ (scanDirectory builtin_modules projC3).local_modules ∧
    "os" ∈ neighbors (scanDirectory builtin_modules projC3).dependency_graph "main" ∧
    (scanDirectory builtin_modules projC3).file_local_imports.lookup "main.py" = some ["os"] := by
  decide

/-- C3 (amended): a name in the stdlib table is always excluded from
the third-party list (stdlib precedence does hold there), but when a
same-named local module exists the extractor still records a
dependency-graph edge and a local-import entry for it. -/
theorem stdlib_excluded_but_edges_recorded :
    (∀ (builtins stdlibT localsT imports : List String) (nm : String), nm ∈ stdlibT →
      nm ∉ filterThirdParty builtins stdlibT localsT imports) ∧
    "os" ∉ (scanDirectory builtin_modules projC3).third_party_imports ∧
    "os" ∈ neighbors (scanDirectory builtin_modules projC3).dependency_graph "main" :=
  ⟨fun builtins stdlibT localsT imports nm h =>
    not_mem_filterThirdParty (Or.inr (Or.inl h)) imports,
   by decide, by decide⟩

/-- C3 (witness). -/
theorem stdlib_excluded_but_edges_recorded_witness :
    "os" ∉ filterThirdParty [] stdlib_modules [] ["os"] :=
  stdlib_excluded_but_edges_recorded.1 [] stdlib_modules [] ["os"] "os" (by decide)

/-- C4: on the dependency graph `{b: {a}, a: {b}}` (key `b` inserted
first) the detector finds the closed walk `[b, a, b]` but outputs the
normalized list `[a, b, b]`, whose last element differs from its first
and whose final pair `(b, b)` is not an edge — the deduplicated output
is not a closed walk, because normalization rotates the closed list
with its duplicated endpoint. -/
theorem detect_output_not_closed_walk :
    detectCircular [("b", ["a"]), ("a", ["b"])] = [["a", "b", "b"]] ∧
    isClosedWalkB [("b", ["a"]), ("a", ["b"])] ["a", "b", "b"] = false ∧
    isClosedWalkB [("b", ["a"]), ("a", ["b"])] ["b", "a", "b"] = true := by
  decide

/-- C5: every name that the Module Catalog puts into the local-module
set (dotted module ids, bare stems and allow-list entries alike) is
excluded from the third-party list by the filter, whatever the import
set and the builtin/stdlib tables are. -/
theorem local_modules_never_third_party (files : List (List String))
    (builtins stdlibT imports : List String) (nm : String)
    (h : nm ∈ (discover files).1) :
    nm ∉ filterThirdParty builtins stdlibT (discover files).1 imports :=
  not_mem_filterThirdParty (Or.inr (Or.inr h)) imports

/-- C5 (witness). -/
theorem local_modules_never_third_party_witness :
    "util" ∉ filterThirdParty builtin_modules stdlib_modules
      (discover [["pkg", "util.py"]]).1 ["util", "requests"] :=
  local_modules_never_third_party [["pkg", "util.py"]] builtin_modules stdlib_modules
    ["util", "requests"] "util" (by decide)

/-- C6 (counterexample): a plain source file `a/b.py` registers the
module id `a.b` and the stem `b`, but not the ancestor prefix `a` — the
prefix insertion happens only for package-init files. -/
theorem plain_file_ancestor_missing :
    "a.b" ∈ (discover [["a", "b.py"]]).1 ∧ "a" ∉ (discover [["a", "b.py"]]).1 := by
  decide

/-- C6 (amended): for a module id discovered from a package-init file,
every dotted prefix of the id is inserted into the local-module set;
for a plain source file only the full dotted id and the bare filename
stem are inserted. -/
theorem ancestor_prefixes_for_init_files :
    (∀ (files : List (List String)) (segs : List String), segs ∈ files →
        segs.getLast? = some "__init__.py" → segs.dropLast ≠ [] →
        ∀ p ∈ prefixesOf (dotted segs.dropLast), p ∈ (discover files).1) ∧
    (∀ (files : List (List String)) (segs : List String) (name : String), segs ∈ files →
        segs.getLast? = some name → name ≠ "__init__.py" → isPyName name = true →
        dotted (segs.dropLast ++ [stemOf name]) ∈ (discover files).1 ∧
          stemOf name ∈ (discover files).1) := by
  constructor
  · intro files segs hmem h1 h2 p hp
    exact mem_discover_of_step hmem (fun st => discoverStep_init_mem st segs h1 h2 p hp)
  · intro files segs name hmem h1 h2 h3
    constructor
    · exact mem_discover_of_step hmem (fun st => (discoverStep_plain_mem st segs name h1 h2 h3).1)
    · exact mem_discover_of_step hmem (fun st => (discoverStep_plain_mem st segs name h1 h2 h3).2)

/-- C6 (witness). -/
theorem ancestor_prefixes_for_init_files_witness :
    "pkg" ∈ (discover [["pkg", "sub", "__init__.py"]]).1 ∧
    dotted (["a", "b.py"].dropLast ++ [stemOf "b.py"]) ∈ (discover [["a", "b.py"]]).1 :=
  ⟨ancestor_prefixes_for_init_files.1 [["pkg", "sub", "__init__.py"]] ["pkg", "sub", "__init__.py"]
      (by decide) (by decide) (by decide) "pkg" (by decide),
   (ancestor_prefixes_for_init_files.2 [["a", "b.py"]] ["a", "b.py"] "b.py"
      (by decide) (by decide) (by decide) (by decide)).1⟩

/-- C7: whenever the dependency graph contains a self-edge `A -> A`,
the deduplicated output of the cycle detector contains the
single-element cycle `[A, A]`. -/
theorem self_edge_reported (g : Graph) (A : String) (hA : A ∈ neighbors g A) :
    [A, A] ∈ detectCircular g := by
  have hkey : A ∈ g.map Prod.fst := neighbors_ne_nil_key (List.ne_nil_of_mem hA)
  unfold detectCircular
  refine dedup_mem_of_fixed _ [] [A, A] ?_ (normalize_pair_self A)
  refine detect_fold_selfLoop g A hA _ (g.map Prod.fst) ([], [])
    (fun h => absurd h (List.not_mem_nil _)) ?_
  exact detect_key_visited g (g.length + (g.map (fun p => p.2.length)).sum)
    (g.map Prod.fst) ([], []) A hkey

/-- C7 (witness). -/
theorem self_edge_reported_witness : ["a", "a"] ∈ detectCircular [("a", ["a"])] :=
  self_edge_reported [("a", ["a"])] "a" (by decide)

/-- C8: a relative import statement (a from-import with a positive
level, or `from . import x`, whose module is absent) contributes
nothing to extraction: folding the extractor over a statement list
equals folding it over the list with all relative imports removed, so
neither the all-imports set, the local-imports set nor the dependency
graph receives anything from them. -/
theorem relative_imports_contribute_nothing (locals : List String) (cur : String)
    (st : (List String × List String) × Graph) (stmts : List Stmt) :
    stmts.foldl (processStmt locals cur) st =
      (stmts.filter (fun s => !isRelativeImport s)).foldl (processStmt locals cur) st := by
  induction stmts generalizing st with
  | nil => rfl
  | cons s t ih =>
    by_cases h : isRelativeImport s = true
    · rw [List.foldl_cons, processStmt_relative_noop locals cur st s h]
      have hf : (s :: t).filter (fun s => !isRelativeImport s) =
          t.filter (fun s => !isRelativeImport s) := by
        simp [List.filter_cons, h]
      rw [hf]
      exact ih st
    · have hb : isRelativeImport s = false := by
        rcases Bool.eq_false_or_eq_true (isRelativeImport s) with ht | hf
        · exact absurd ht h
        · exact hf
      have hf : (s :: t).filter (fun s => !isRelativeImport s) =
          s :: t.filter (fun s => !isRelativeImport s) := by
        simp [List.filter_cons, hb]
      rw [hf, List.foldl_cons, List.foldl_cons]
      exact ih (processStmt locals cur st s)

/-- C9: when reading or parsing one file fails, the scan continues:
the failing file contributes empty all-imports and local-imports
entries, a warning naming the file is appended, and neither the
dependency graph nor the aggregated import set differs from a scan in
which the file is absent (so the remaining files are processed
unchanged). -/
theorem parse_failure_recoverable (locals : List String) (f2m : List (String × String))
    (s : ScanState) (segs : List String) (name e : String)
    (h1 : segs.getLast? = some name) (h2 : startsWithDot name = false) :
    processFile locals f2m s (segs, Except.error e) =
      { s with
        fileImports := updateA s.fileImports (pathStr segs) [],
        fileLocalImports := updateA s.fileLocalImports (pathStr segs) [],
        warnings := s.warnings ++ ["警告: 无法解析文件 " ++ pathStr segs ++ ": " ++ e] } ∧
    ∀ (pre post : List PyFile) (s0 : ScanState),
      ((pre ++ (segs, Except.error e) :: post).foldl (processFile locals f2m) s0).graph =
        ((pre ++ post).foldl (processFile locals f2m) s0).graph ∧
      ((pre ++ (segs, Except.error e) :: post).foldl (processFile locals f2m) s0).allImports =
        ((pre ++ post).foldl (processFile locals f2m) s0).allImports := by
  refine ⟨processFile_error_eq locals f2m s segs name e h1 h2, ?_⟩
  intro pre post s0
  rw [List.foldl_append, List.foldl_append, List.foldl_cons]
  refine scanFold_congr locals f2m post _ _ ?_ ?_
  · rw [processFile_error_eq locals f2m _ segs name e h1 h2]
  · rw [processFile_error_eq locals f2m _ segs name e h1 h2]

/-- C9 (witness). -/
theorem parse_failure_recoverable_witness :
    processFile [] [] initState (["x.py"], Except.error "boom") =
      { initState with
        fileImports := updateA initState.fileImports (pathStr ["x.py"]) [],
        fileLocalImports := updateA initState.fileLocalImports (pathStr ["x.py"]) [],
        warnings := initState.warnings ++
          ["警告: 无法解析文件 " ++ pathStr ["x.py"] ++ ": " ++ "boom"] } ∧
    ∀ (pre post : List PyFile) (s0 : ScanState),
      ((pre ++ (["x.py"], Except.error "boom") :: post).foldl (processFile [] []) s0).graph =
        ((pre ++ post).foldl (processFile [] []) s0).graph ∧
      ((pre ++ (["x.py"], Except.error "boom") :: post).foldl (processFile [] []) s0).allImports =
        ((pre ++ post).foldl (processFile [] []) s0).allImports :=
  parse_failure_recoverable [] [] initState ["x.py"] "x.py" "boom" rfl rfl

/-- C10: after scanning any sequence of source files starting from the
empty graph, every target of every dependency-graph edge is a member of
the catalog's local-module set — edges are only added for references
that pass the local-membership test. -/
theorem graph_targets_are_local (builtins : List String) (files : List PyFile) (u v : String)
    (h : v ∈ neighbors (scanDirectory builtins files).dependency_graph u) :
    v ∈ (discover (files.map Prod.fst)).1 := by
  have hbase : ∀ u v, v ∈ neighbors initState.graph u →
      v ∈ (discover (files.map Prod.fst)).1 := by
    intro u v hv
    exact absurd hv (List.not_mem_nil v)
  exact scan_graph_targets _ _ files initState hbase u v h

/-- C10 (witness). -/
theorem graph_targets_are_local_witness :
    "pkg" ∈ (discover (projC1.map Prod.fst)).1 :=
  graph_targets_are_local builtin_modules projC1 "__init__" "pkg" (by decide)

end ScanDeps
